import Mathlib

/-!
Verification of `syntect`'s `src/highlighting/theme_set.rs` (theme discovery,
materialization and catalog building) against its specification.

The filesystem, the `walkdir` crate, `File::open`, the external plist parser
(`read_plist` from `settings.rs`) and the external theme validator
(`Theme::parse_settings`) are outside the source under verification; they are
modelled from the spec as explicit data.  The five functions of
`theme_set.rs` — `discover_theme_paths`, `read_file`, `read_plist`,
`get_theme`, `load_from_folder` — are translated line by line from the source.
-/

namespace ThemeSpec

/-- One unit of an OS-level file name: either a valid character or a byte
sequence unit that is not representable as plain text (non-UTF-8). -/
inductive OsChar where
  | ch (c : Char)
  | bad
deriving DecidableEq, Repr

/-- An OS string (one path component), as a sequence of units. -/
abbrev OsStr := List OsChar

/-- `OsStr::to_str`: `some` exactly when every unit is a valid character. -/
def osToStr : OsStr → Option String
  | [] => some ""
  | OsChar.ch c :: rest => (osToStr rest).map (fun s => String.mk (c :: s.toList))
  | OsChar.bad :: _ => none

/-- Lift a Lean string to an OS string (all units valid). -/
def osOf (s : String) : OsStr := s.toList.map OsChar.ch

/-- Split a file name at its LAST dot: `some (before, after)` with
`n = before ++ [.] ++ after`, `none` when no dot occurs. -/
def splitLastDot : OsStr → Option (OsStr × OsStr)
  | [] => none
  | c :: rest =>
    match splitLastDot rest with
    | some (b, a) => some (c :: b, a)
    | none => if c = OsChar.ch '.' then some ([], rest) else none

/-- `Path::extension` restricted to a file name, following Rust's rule:
no dot, or only a leading dot, gives `none`; otherwise the portion after
the last dot. -/
def osExtension (n : OsStr) : Option OsStr :=
  match splitLastDot n with
  | none => none
  | some (b, a) => if b = [] then none else some a

/-- `Path::file_stem` restricted to a file name, following Rust's rule:
the portion before the last dot, or the whole name when there is no dot
or only a leading dot; `none` for the empty name. -/
def osFileStem (n : OsStr) : Option OsStr :=
  if n = [] then none
  else
    match splitLastDot n with
    | none => some n
    | some (b, _) => if b = [] then some n else some b

/-- A filesystem path, as its list of components (root to leaf). -/
abbrev Path := List OsStr

/-- `Path::extension`: the extension of the final component. -/
def pathExtension (p : Path) : Option OsStr := p.getLast?.bind osExtension

/-- `Path::file_stem`: the stem of the final component. -/
def pathFileStem (p : Path) : Option OsStr := p.getLast?.bind osFileStem

/-- `p.file_stem().and_then(|x| x.to_str())` — the identifier derivation
used by `load_from_folder`. -/
def fileStemStr (p : Path) : Option String := (pathFileStem p).bind osToStr

/-- The extension filter of `discover_theme_paths`:
`entry.path().extension().map(|e| e == "tmTheme").unwrap_or(false)`.
The comparison of an `OsStr` against the literal is case-sensitive and
holds only for valid UTF-8 equal to `"tmTheme"`. -/
def hasTmThemeExt (p : Path) : Bool :=
  match pathExtension p with
  | some e => osToStr e == some "tmTheme"
  | none => false

/-- Modelled from the spec: opaque diagnostic of the external settings
parser (`SettingsError`). -/
abbrev SettingsError := String

/-- Modelled from the spec: opaque diagnostic of the external theme
validator (`ParseThemeError`). -/
abbrev ParseThemeError := String

/-- Modelled from the spec: a validated `Theme` value, opaque to this core
beyond its identity. -/
structure Theme where
  ident : Nat
deriving DecidableEq, Repr

/-- Modelled from the spec: a generic settings tree, opaque except for what
the external theme validator does with it. -/
structure Settings where
  validate : Except ParseThemeError Theme
deriving Repr

/-- Modelled from the spec: the content of a file, described by what the
external settings parser does with its bytes. -/
inductive FileData where
  /-- bytes the external settings parser rejects -/
  | badDoc (e : SettingsError)
  /-- bytes parsing to a settings tree -/
  | doc (s : Settings)
deriving Repr

/-- Modelled from the spec: the external settings parser
(`read_plist` of `settings.rs`): bytes to settings tree or parse error. -/
def readPlistExternal : FileData → Except SettingsError Settings
  | FileData.badDoc e => Except.error e
  | FileData.doc s => Except.ok s

/-- Modelled from the spec: the external theme validator
(`Theme::parse_settings`): settings tree to `Theme` or validation error. -/
def parseSettingsExternal (s : Settings) : Except ParseThemeError Theme :=
  s.validate

/-- Modelled from the spec: an OS-level I/O failure from opening a path. -/
inductive IoError where
  | notFound
  | permissionDenied
  | isDirectory
deriving DecidableEq, Repr

/-- Modelled from the spec: a `walkdir::Error`, identifying the offending
location of a traversal failure. -/
structure WalkdirError where
  loc : Path
deriving DecidableEq, Repr

/-- Modelled from the spec: a node of a filesystem tree.  A file carries
whether it can be opened and its content; a directory carries whether its
entries can be listed. -/
inductive FsNode where
  | file (name : OsStr) (openable : Bool) (data : FileData)
  | dir (name : OsStr) (readable : Bool) (entries : List FsNode)

/-- The name of a node. -/
def FsNode.name : FsNode → OsStr
  | FsNode.file n _ _ => n
  | FsNode.dir n _ _ => n

/-- Modelled from the spec: a root handed to `WalkDir::new` — either a
nonexistent path or an existing node addressed by `parent ++ [node.name]`. -/
inductive FsRoot where
  | missing (path : Path)
  | present (parent : Path) (node : FsNode)

mutual
/-- Modelled from the spec: the sequence of items the `walkdir` iterator
yields for a node: the node's own path first, then (for a directory)
its contents depth-first; an unreadable directory yields its own path
followed by one error identifying it. -/
def walkNode (pre : Path) : FsNode → List (Except WalkdirError Path)
  | FsNode.file n _ _ => [Except.ok (pre ++ [n])]
  | FsNode.dir n readable entries =>
    Except.ok (pre ++ [n]) ::
      (if readable then walkChildren (pre ++ [n]) entries
       else [Except.error ⟨pre ++ [n]⟩])

/-- Modelled from the spec: the walk of a directory's entries in order. -/
def walkChildren (pre : Path) : List FsNode → List (Except WalkdirError Path)
  | [] => []
  | n :: rest => walkNode pre n ++ walkChildren pre rest
end

/-- Modelled from the spec: what `WalkDir::new(folder)` yields: a single
error for a nonexistent root, the full walk otherwise. -/
def walkRoot : FsRoot → List (Except WalkdirError Path)
  | FsRoot.missing p => [Except.error ⟨p⟩]
  | FsRoot.present parent node => walkNode parent node

/-- The paths yielded by a walk (its non-error items, in order). -/
def walkedPaths (fs : FsRoot) : List Path :=
  (walkRoot fs).filterMap (fun x => x.toOption)

/-- Strip a leading component sequence from a path. -/
def dropLead : Path → Path → Option Path
  | [], p => some p
  | _ :: _, [] => none
  | a :: as, b :: bs => if a = b then dropLead as bs else none

mutual
/-- Modelled from the spec: resolve the remaining components against a node. -/
def resolveNode : FsNode → List OsStr → Option FsNode
  | n, [] => some n
  | FsNode.file _ _ _, _ :: _ => none
  | FsNode.dir _ _ entries, c :: rest => resolveIn entries c rest

/-- Modelled from the spec: resolve a component among a directory's entries. -/
def resolveIn : List FsNode → OsStr → List OsStr → Option FsNode
  | [], _, _ => none
  | n :: rest, c, comps =>
    if n.name = c then resolveNode n comps else resolveIn rest c comps
end

/-- Modelled from the spec: resolve an absolute path against a root. -/
def resolveRoot : FsRoot → Path → Option FsNode
  | FsRoot.missing _, _ => none
  | FsRoot.present parent node, p =>
    match dropLead parent p with
    | some (c :: rest) => if node.name = c then resolveNode node rest else none
    | _ => none

/-- Modelled from the spec (Document Loader, 4.2): `File::open` — fails with
a file-access error when the path does not resolve, resolves to an
unopenable file, or resolves to a directory. -/
def fileOpen (fs : FsRoot) (p : Path) : Except IoError FileData :=
  match resolveRoot fs p with
  | none => Except.error IoError.notFound
  | some (FsNode.file _ openable data) =>
    if openable then Except.ok data else Except.error IoError.permissionDenied
  | some (FsNode.dir _ _ _) => Except.error IoError.isDirectory

/-- `ThemeSetError` from `theme_set.rs`, one variant per failure origin. -/
inductive ThemeSetError where
  | WalkDir (e : WalkdirError)
  | Io (e : IoError)
  | ParseTheme (e : ParseThemeError)
  | ReadSettings (e : SettingsError)
  | BadPath
deriving DecidableEq, Repr

/-- Lexicographic comparison of character lists by scalar value; for
`String` keys this is the order Rust's `Ord` imposes on a `BTreeMap`
(UTF-8 byte order coincides with scalar-value order). -/
def charListLt : List Char → List Char → Bool
  | [], [] => false
  | [], _ :: _ => true
  | _ :: _, [] => false
  | a :: as, b :: bs =>
    if a = b then charListLt as bs else decide (a.toNat < b.toNat)

/-- The key order of the catalog's `BTreeMap<String, Theme>`. -/
def strLt (a b : String) : Bool := charListLt a.toList b.toList

/-- The catalog: `pub themes: BTreeMap<String, Theme>`, modelled as an
association list kept in ascending key order by insertion. -/
abbrev ThemeMap := List (String × Theme)

/-- `BTreeMap::insert`: ordered insertion, replacing an equal key. -/
def mapInsert (k : String) (v : Theme) : ThemeMap → ThemeMap
  | [] => [(k, v)]
  | (k', v') :: rest =>
    if strLt k k' then (k, v) :: (k', v') :: rest
    else if k = k' then (k, v) :: rest
    else (k', v') :: mapInsert k v rest

/-- `BTreeMap::get`. -/
def mapLookup (k : String) : ThemeMap → Option Theme
  | [] => none
  | (k', v') :: rest => if k = k' then some v' else mapLookup k rest

/-- `pub struct ThemeSet { pub themes: BTreeMap<String, Theme> }`. -/
structure ThemeSet where
  themes : ThemeMap

namespace ThemeSet

/-- The loop of `discover_theme_paths`: consume the walkdir items in order,
abort with `ThemeSetError::WalkDir` on the first error item, keep paths
passing the extension filter. -/
def discoverLoop : List (Except WalkdirError Path) → List Path →
    Except ThemeSetError (List Path)
  | [], acc => Except.ok acc
  | Except.error e :: _, _ => Except.error (ThemeSetError.WalkDir e)
  | Except.ok p :: rest, acc =>
    discoverLoop rest (if hasTmThemeExt p then acc ++ [p] else acc)

/-- `ThemeSet::discover_theme_paths`. -/
def discover_theme_paths (fs : FsRoot) : Except ThemeSetError (List Path) :=
  discoverLoop (walkRoot fs) []

/-- `ThemeSet::read_file`: `try!(File::open(path))`, the I/O error lifted by
`From<IoError> for ThemeSetError` into the `Io` variant. -/
def read_file (fs : FsRoot) (p : Path) : Except ThemeSetError FileData :=
  match fileOpen fs p with
  | Except.error e => Except.error (ThemeSetError.Io e)
  | Except.ok d => Except.ok d

/-- `ThemeSet::read_plist`: `Ok(try!(read_plist(try!(Self::read_file(path)))))`,
the settings error lifted into the `ReadSettings` variant. -/
def read_plist (fs : FsRoot) (p : Path) : Except ThemeSetError Settings :=
  match read_file fs p with
  | Except.error e => Except.error e
  | Except.ok d =>
    match readPlistExternal d with
    | Except.error e => Except.error (ThemeSetError.ReadSettings e)
    | Except.ok s => Except.ok s

/-- `ThemeSet::get_theme`:
`Ok(try!(Theme::parse_settings(try!(Self::read_plist(path)))))`, the
validation error lifted into the `ParseTheme` variant. -/
def get_theme (fs : FsRoot) (p : Path) : Except ThemeSetError Theme :=
  match read_plist fs p with
  | Except.error e => Except.error e
  | Except.ok s =>
    match parseSettingsExternal s with
    | Except.error e => Except.error (ThemeSetError.ParseTheme e)
    | Except.ok t => Except.ok t

/-- The per-path body of the `load_from_folder` loop: run `get_theme`
first, then derive the identifier from the stem
(`try!(p.file_stem().and_then(|x| x.to_str()).ok_or(ThemeSetError::BadPath))`). -/
def pathResult (fs : FsRoot) (p : Path) :
    Except ThemeSetError (String × Theme) :=
  match get_theme fs p with
  | Except.error e => Except.error e
  | Except.ok t =>
    match fileStemStr p with
    | none => Except.error ThemeSetError.BadPath
    | some s => Except.ok (s, t)

/-- The loop of `load_from_folder` over the discovered paths. -/
def loadLoop (fs : FsRoot) : List Path → ThemeMap →
    Except ThemeSetError ThemeMap
  | [], m => Except.ok m
  | p :: rest, m =>
    match get_theme fs p with
    | Except.error e => Except.error e
    | Except.ok t =>
      match fileStemStr p with
      | none => Except.error ThemeSetError.BadPath
      | some basename => loadLoop fs rest (mapInsert basename t m)

/-- `ThemeSet::load_from_folder`. -/
def load_from_folder (fs : FsRoot) : Except ThemeSetError ThemeSet :=
  match discover_theme_paths fs with
  | Except.error e => Except.error e
  | Except.ok paths =>
    match loadLoop fs paths [] with
    | Except.error e => Except.error e
    | Except.ok m => Except.ok ⟨m⟩

end ThemeSet

namespace ThemeSet

/-! ### Lemmas about the discovery loop -/

theorem discoverLoop_allOk (items : List (Except WalkdirError Path)) :
    ∀ acc, (∀ x ∈ items, x.isOk = true) →
    discoverLoop items acc =
      Except.ok (acc ++ (items.filterMap Except.toOption).filter hasTmThemeExt) := by
  induction items with
  | nil => intro acc _; simp [discoverLoop]
  | cons x rest ih =>
    intro acc h
    match x with
    | Except.error e => exact absurd (h _ (List.mem_cons_self _ _)) (by simp [Except.isOk, Except.toBool])
    | Except.ok p =>
      have hrest : ∀ y ∈ rest, y.isOk = true := fun y hy => h y (List.mem_cons_of_mem _ hy)
      rw [discoverLoop, ih _ hrest]
      by_cases hp : hasTmThemeExt p
      · simp [Except.toOption, List.filter, hp]
      · simp [Except.toOption, List.filter, hp]

theorem discoverLoop_firstError (pre : List (Except WalkdirError Path)) :
    ∀ acc e rest, (∀ x ∈ pre, x.isOk = true) →
    discoverLoop (pre ++ Except.error e :: rest) acc =
      Except.error (ThemeSetError.WalkDir e) := by
  induction pre with
  | nil => intro acc e rest _; rfl
  | cons x xs ih =>
    intro acc e rest h
    match x with
    | Except.error e' => exact absurd (h _ (List.mem_cons_self _ _)) (by simp [Except.isOk, Except.toBool])
    | Except.ok p =>
      rw [List.cons_append, discoverLoop]
      exact ih _ e rest (fun y hy => h y (List.mem_cons_of_mem _ hy))

theorem discoverLoop_ok_allOk (items : List (Except WalkdirError Path)) :
    ∀ acc l, discoverLoop items acc = Except.ok l → ∀ x ∈ items, x.isOk = true := by
  induction items with
  | nil => intro acc l _ x hx; cases hx
  | cons x rest ih =>
    intro acc l h y hy
    match x with
    | Except.error e => rw [discoverLoop] at h; cases h
    | Except.ok p =>
      rcases List.mem_cons.mp hy with hy | hy
      · subst hy; rfl
      · rw [discoverLoop] at h
        exact ih _ l h y hy

theorem discover_ok_eq_filter (fs : FsRoot)
    (h : ∀ x ∈ walkRoot fs, x.isOk = true) :
    discover_theme_paths fs = Except.ok ((walkedPaths fs).filter hasTmThemeExt) := by
  rw [discover_theme_paths, discoverLoop_allOk _ _ h]
  rfl

theorem discover_ok_mem (fs : FsRoot) (l : List Path)
    (h : discover_theme_paths fs = Except.ok l) :
    ∀ p, p ∈ l ↔ Except.ok p ∈ walkRoot fs ∧ hasTmThemeExt p = true := by
  have hall : ∀ x ∈ walkRoot fs, x.isOk = true :=
    discoverLoop_ok_allOk _ _ _ h
  rw [discover_ok_eq_filter fs hall] at h
  intro p
  have hl : l = (walkedPaths fs).filter hasTmThemeExt := by
    injection h with h'; exact h'.symm
  subst hl
  rw [List.mem_filter, walkedPaths, List.mem_filterMap]
  constructor
  · rintro ⟨⟨x, hx, hxp⟩, hext⟩
    refine ⟨?_, hext⟩
    match x with
    | Except.ok q => simp [Except.toOption] at hxp; subst hxp; exact hx
    | Except.error e => simp [Except.toOption] at hxp
  · rintro ⟨hmem, hext⟩
    exact ⟨⟨Except.ok p, hmem, rfl⟩, hext⟩

/-! ### Lemmas about the key order and the ordered map -/

theorem charToNat_inj {a b : Char} (h : a.toNat = b.toNat) : a = b := by
  have hv : a.val = b.val := by
    unfold Char.toNat at h
    exact UInt32.toNat.inj h
  exact Char.eq_of_val_eq hv

theorem charListLt_irrefl (x : List Char) : charListLt x x = false := by
  induction x with
  | nil => rfl
  | cons a as ih => rw [charListLt]; simp [ih]

theorem charListLt_trans :
    ∀ x y z, charListLt x y = true → charListLt y z = true →
    charListLt x z = true := by
  intro x
  induction x with
  | nil =>
    intro y z hxy hyz
    match y, z with
    | [], _ => rw [charListLt] at hxy; cases hxy
    | _ :: _, [] => rw [charListLt] at hyz; cases hyz
    | _ :: _, _ :: _ => rw [charListLt]
  | cons a as ih =>
    intro y z hxy hyz
    match y, z with
    | [], _ => rw [charListLt] at hxy; cases hxy
    | _ :: _, [] => rw [charListLt] at hyz; cases hyz
    | b :: bs, c :: cs =>
      rw [charListLt] at hxy hyz ⊢
      by_cases hab : a = b
      · subst hab
        rw [if_pos rfl] at hxy
        by_cases hac : a = c
        · subst hac
          rw [if_pos rfl] at hyz ⊢
          exact ih bs cs hxy hyz
        · rw [if_neg hac] at hyz ⊢
          exact hyz
      · rw [if_neg hab] at hxy
        simp only [decide_eq_true_eq] at hxy
        by_cases hbc : b = c
        · subst hbc
          rw [if_neg hab]
          simp only [decide_eq_true_eq]
          exact hxy
        · rw [if_neg hbc] at hyz
          simp only [decide_eq_true_eq] at hyz
          have hlt : a.toNat < c.toNat := Nat.lt_trans hxy hyz
          have hac : ¬ a = c := fun h => by subst h; omega
          rw [if_neg hac]
          simp only [decide_eq_true_eq]
          exact hlt

theorem charListLt_flip :
    ∀ x y, charListLt x y = false → x ≠ y → charListLt y x = true := by
  intro x
  induction x with
  | nil =>
    intro y hxy hne
    match y with
    | [] => exact absurd rfl hne
    | b :: bs => rw [charListLt] at hxy; cases hxy
  | cons a as ih =>
    intro y hxy hne
    match y with
    | [] => rw [charListLt]
    | b :: bs =>
      rw [charListLt] at hxy ⊢
      by_cases hab : a = b
      · subst hab
        rw [if_pos rfl] at hxy
        rw [if_pos rfl]
        exact ih bs hxy (fun h => hne (by rw [h]))
      · have hba : ¬ b = a := fun h => hab h.symm
        rw [if_neg hab] at hxy
        rw [if_neg hba]
        simp only [decide_eq_false_iff_not] at hxy
        simp only [decide_eq_true_eq]
        have hne2 : a.toNat ≠ b.toNat := fun h => hab (charToNat_inj h)
        omega

theorem strLt_irrefl (a : String) : strLt a a = false := charListLt_irrefl _

theorem strLt_trans {a b c : String} (h1 : strLt a b = true)
    (h2 : strLt b c = true) : strLt a c = true :=
  charListLt_trans _ _ _ h1 h2

theorem strLt_flip {a b : String} (h : strLt a b = false) (hne : a ≠ b) :
    strLt b a = true :=
  charListLt_flip _ _ h (fun hl => hne (String.toList_inj.mp hl))

theorem strLt_ne {a b : String} (h : strLt a b = true) : a ≠ b := fun he => by
  rw [he, strLt_irrefl] at h
  cases h

theorem mapLookup_mapInsert (s k : String) (v : Theme) :
    ∀ m : ThemeMap,
    mapLookup s (mapInsert k v m) = if s = k then some v else mapLookup s m := by
  intro m
  induction m with
  | nil => simp [mapInsert, mapLookup]
  | cons kv rest ih =>
    obtain ⟨k', v'⟩ := kv
    rw [mapInsert]
    by_cases h1 : strLt k k' = true
    · simp only [if_pos h1, mapLookup]
    · by_cases h2 : k = k'
      · subst h2
        rw [if_neg h1, if_pos rfl]
        simp only [mapLookup]
        by_cases hs : s = k <;> simp [hs]
      · rw [if_neg h1, if_neg h2]
        simp only [mapLookup, ih]
        by_cases h3 : s = k' <;> by_cases h4 : s = k <;> simp_all

theorem mapInsert_mem (k : String) (v : Theme) :
    ∀ (m : ThemeMap) (x : String × Theme),
    x ∈ mapInsert k v m → x = (k, v) ∨ x ∈ m := by
  intro m
  induction m with
  | nil => intro x hx; simp [mapInsert] at hx; exact Or.inl hx
  | cons kv rest ih =>
    obtain ⟨k', v'⟩ := kv
    intro x hx
    rw [mapInsert] at hx
    by_cases h1 : strLt k k' = true
    · simp only [if_pos h1] at hx
      rcases List.mem_cons.mp hx with h | h
      · exact Or.inl h
      · exact Or.inr h
    · by_cases h2 : k = k'
      · rw [if_neg h1, if_pos h2] at hx
        rcases List.mem_cons.mp hx with h | h
        · exact Or.inl h
        · exact Or.inr (List.mem_cons_of_mem _ h)
      · rw [if_neg h1, if_neg h2] at hx
        rcases List.mem_cons.mp hx with h | h
        · exact Or.inr (h ▸ List.mem_cons_self _ _)
        · rcases ih x h with h' | h'
          · exact Or.inl h'
          · exact Or.inr (List.mem_cons_of_mem _ h')

/-- Strict ascending key order, the `BTreeMap` representation invariant. -/
def keysAscending (m : ThemeMap) : Prop :=
  m.Pairwise (fun a b => strLt a.1 b.1 = true)

theorem mapInsert_keysAscending (k : String) (v : Theme) :
    ∀ m : ThemeMap, keysAscending m → keysAscending (mapInsert k v m) := by
  intro m
  induction m with
  | nil => intro _; simp [mapInsert, keysAscending]
  | cons kv rest ih =>
    obtain ⟨k', v'⟩ := kv
    intro hm
    rw [keysAscending, List.pairwise_cons] at hm
    obtain ⟨hhead, hrest⟩ := hm
    rw [mapInsert]
    by_cases h1 : strLt k k' = true
    · simp only [if_pos h1]
      rw [keysAscending, List.pairwise_cons]
      refine ⟨?_, List.pairwise_cons.mpr ⟨hhead, hrest⟩⟩
      intro x hx
      rcases List.mem_cons.mp hx with h | h
      · subst h; exact h1
      · exact strLt_trans h1 (hhead x h)
    · by_cases h2 : k = k'
      · subst h2
        rw [if_neg h1, if_pos rfl]
        exact List.pairwise_cons.mpr ⟨hhead, hrest⟩
      · have h1f : strLt k k' = false := by revert h1; cases strLt k k' <;> simp
        have hk : strLt k' k = true := strLt_flip h1f h2
        rw [if_neg h1, if_neg h2]
        rw [keysAscending, List.pairwise_cons]
        refine ⟨?_, ih hrest⟩
        intro x hx
        rcases mapInsert_mem k v rest x hx with h | h
        · subst h; exact hk
        · exact hhead x h

/-! ### Lemmas about the catalog-building loop -/

theorem loadLoop_cons (fs : FsRoot) (p : Path) (rest : List Path) (m : ThemeMap) :
    loadLoop fs (p :: rest) m =
      match pathResult fs p with
      | Except.error e => Except.error e
      | Except.ok (s, t) => loadLoop fs rest (mapInsert s t m) := by
  rw [loadLoop, pathResult]
  match hg : get_theme fs p with
  | Except.error e => rfl
  | Except.ok t =>
    match hs : fileStemStr p with
    | none => rfl
    | some s => rfl

theorem loadLoop_firstError (fs : FsRoot) :
    ∀ (pre : List Path) (p : Path) (post : List Path) (m : ThemeMap)
      (e : ThemeSetError),
    (∀ q ∈ pre, (pathResult fs q).isOk = true) →
    pathResult fs p = Except.error e →
    loadLoop fs (pre ++ p :: post) m = Except.error e := by
  intro pre
  induction pre with
  | nil =>
    intro p post m e _ hp
    rw [List.nil_append, loadLoop_cons, hp]
  | cons q qs ih =>
    intro p post m e hok hp
    rw [List.cons_append, loadLoop_cons]
    match hq : pathResult fs q with
    | Except.error e' =>
      have := hok q (List.mem_cons_self _ _)
      rw [hq] at this
      simp [Except.isOk, Except.toBool] at this
    | Except.ok (s, t) =>
      exact ih p post (mapInsert s t m) e
        (fun r hr => hok r (List.mem_cons_of_mem _ hr)) hp

theorem loadLoop_ok_of_all (fs : FsRoot) :
    ∀ (paths : List Path) (m : ThemeMap),
    (∀ p ∈ paths, (pathResult fs p).isOk = true) →
    ∃ m', loadLoop fs paths m = Except.ok m' := by
  intro paths
  induction paths with
  | nil => intro m _; exact ⟨m, rfl⟩
  | cons p rest ih =>
    intro m hok
    rw [loadLoop_cons]
    match hp : pathResult fs p with
    | Except.error e =>
      have := hok p (List.mem_cons_self _ _)
      rw [hp] at this
      simp [Except.isOk, Except.toBool] at this
    | Except.ok (s, t) =>
      exact ih (mapInsert s t m) (fun q hq => hok q (List.mem_cons_of_mem _ hq))

theorem loadLoop_ok_all (fs : FsRoot) :
    ∀ (paths : List Path) (m m' : ThemeMap),
    loadLoop fs paths m = Except.ok m' →
    ∀ p ∈ paths, (pathResult fs p).isOk = true := by
  intro paths
  induction paths with
  | nil => intro m m' _ p hp; cases hp
  | cons q rest ih =>
    intro m m' h p hp
    rw [loadLoop_cons] at h
    match hq : pathResult fs q with
    | Except.error e => rw [hq] at h; cases h
    | Except.ok (s, t) =>
      rw [hq] at h
      rcases List.mem_cons.mp hp with hp | hp
      · subst hp; rw [hq]; rfl
      · exact ih (mapInsert s t m) m' h p hp

theorem loadLoop_keysAscending (fs : FsRoot) :
    ∀ (paths : List Path) (m m' : ThemeMap),
    keysAscending m → loadLoop fs paths m = Except.ok m' → keysAscending m' := by
  intro paths
  induction paths with
  | nil => intro m m' hm h; injection h with h'; exact h' ▸ hm
  | cons p rest ih =>
    intro m m' hm h
    rw [loadLoop_cons] at h
    match hp : pathResult fs p with
    | Except.error e => rw [hp] at h; cases h
    | Except.ok (s, t) =>
      rw [hp] at h
      exact ih _ m' (mapInsert_keysAscending s t m hm) h

/-! ### The last-discovered-wins characterization -/

/-- One step of scanning the discovered paths for the latest theme whose
derived identifier is `s`. -/
def stemStep (fs : FsRoot) (s : String) (acc : Option Theme) (p : Path) :
    Option Theme :=
  match pathResult fs p with
  | Except.ok (s', t) => if s' = s then some t else acc
  | Except.error _ => acc

/-- The theme of the last path among `paths` whose derived identifier is
`s` (and whose materialization succeeded), if any. -/
def lastThemeFor (fs : FsRoot) (paths : List Path) (s : String) : Option Theme :=
  paths.foldl (stemStep fs s) none

theorem option_some_or {α : Type} (t : α) (a : Option α) :
    (Option.some t).or a = some t := rfl

theorem foldl_stemStep_init (fs : FsRoot) (s : String) :
    ∀ (l : List Path) (a : Option Theme),
    l.foldl (stemStep fs s) a = (l.foldl (stemStep fs s) none).or a := by
  intro l
  induction l with
  | nil => intro a; simp [Option.or]
  | cons p rest ih =>
    intro a
    rw [List.foldl_cons, List.foldl_cons, ih (stemStep fs s a p),
      ih (stemStep fs s none p)]
    match hp : pathResult fs p with
    | Except.ok (s', t) =>
      by_cases hs : s' = s
      · simp [stemStep, hp, hs, Option.or_assoc, option_some_or]
      · simp [stemStep, hp, hs, Option.or_assoc]
    | Except.error e => simp [stemStep, hp, Option.or_assoc]

theorem lastThemeFor_cons (fs : FsRoot) (s : String) (p : Path)
    (rest : List Path) :
    lastThemeFor fs (p :: rest) s =
      (lastThemeFor fs rest s).or (stemStep fs s none p) := by
  rw [lastThemeFor, List.foldl_cons, foldl_stemStep_init]
  rfl

theorem loadLoop_lookup (fs : FsRoot) :
    ∀ (paths : List Path) (m m' : ThemeMap),
    loadLoop fs paths m = Except.ok m' →
    ∀ s, mapLookup s m' = (lastThemeFor fs paths s).or (mapLookup s m) := by
  intro paths
  induction paths with
  | nil =>
    intro m m' h s
    injection h with h'
    subst h'
    simp [lastThemeFor, Option.or]
  | cons p rest ih =>
    intro m m' h s
    rw [loadLoop_cons] at h
    match hp : pathResult fs p with
    | Except.error e => rw [hp] at h; cases h
    | Except.ok (s', t) =>
      rw [hp] at h
      rw [lastThemeFor_cons, ih _ _ h s, mapLookup_mapInsert, stemStep, hp]
      by_cases hs : s = s'
      · subst hs
        simp [Option.or_assoc]
      · have : ¬ s' = s := fun h => hs h.symm
        simp [hs, this, Option.or_assoc]

theorem lastThemeFor_isSome (fs : FsRoot) (s : String) (t : Theme) :
    ∀ (paths : List Path) (p : Path), p ∈ paths →
    pathResult fs p = Except.ok (s, t) →
    (lastThemeFor fs paths s).isSome = true := by
  intro paths
  induction paths with
  | nil => intro p hp; cases hp
  | cons q rest ih =>
    intro p hp hres
    rw [lastThemeFor_cons]
    rcases List.mem_cons.mp hp with h | h
    · subst h
      simp [stemStep, hres, Option.isSome_or]
    · have := ih p h hres
      simp [Option.isSome_or, this]

theorem lastThemeFor_isSome_iff (fs : FsRoot) (s : String) :
    ∀ paths : List Path,
    (lastThemeFor fs paths s).isSome = true ↔
      ∃ p ∈ paths, ∃ t, pathResult fs p = Except.ok (s, t) := by
  intro paths
  induction paths with
  | nil => simp [lastThemeFor]
  | cons q rest ih =>
    rw [lastThemeFor_cons]
    constructor
    · intro h
      cases hl : lastThemeFor fs rest s with
      | some t =>
        rcases ih.mp (by simp [hl]) with ⟨p, hp, t', hres⟩
        exact ⟨p, List.mem_cons_of_mem _ hp, t', hres⟩
      | none =>
        rw [hl] at h
        match hq : pathResult fs q with
        | Except.ok (s', t) =>
          by_cases hs : s' = s
          · subst hs
            exact ⟨q, List.mem_cons_self _ _, t, hq⟩
          · simp [stemStep, hq, hs, Option.or] at h
        | Except.error e =>
          simp [stemStep, hq, Option.or] at h
    · rintro ⟨p, hp, t, hres⟩
      rcases List.mem_cons.mp hp with h | h
      · subst h
        simp [stemStep, hres, Option.isSome_or]
      · have := ih.mpr ⟨p, h, t, hres⟩
        simp [Option.isSome_or, this]

/-! ### Bridging lemmas -/

theorem pathResult_ok_iff (fs : FsRoot) (p : Path) (s : String) (t : Theme) :
    pathResult fs p = Except.ok (s, t) ↔
      get_theme fs p = Except.ok t ∧ fileStemStr p = some s := by
  rw [pathResult]
  constructor
  · intro h
    match hg : get_theme fs p with
    | Except.error e => rw [hg] at h; cases h
    | Except.ok t' =>
      rw [hg] at h
      match hs : fileStemStr p with
      | none => rw [hs] at h; cases h
      | some s' =>
        rw [hs] at h
        cases Except.ok.inj h
        exact ⟨rfl, rfl⟩
  · rintro ⟨hg, hs⟩
    rw [hg, hs]

theorem pathResult_isOk_iff (fs : FsRoot) (p : Path) :
    (pathResult fs p).isOk = true ↔
      (get_theme fs p).isOk = true ∧ (fileStemStr p).isSome = true := by
  rw [pathResult]
  match hg : get_theme fs p with
  | Except.error e => simp [Except.isOk, Except.toBool]
  | Except.ok t =>
    match hs : fileStemStr p with
    | none => simp [Except.isOk, Except.toBool]
    | some s => simp [Except.isOk, Except.toBool]

theorem pathResult_isOk_elim (fs : FsRoot) (p : Path)
    (h : (pathResult fs p).isOk = true) :
    ∃ s t, pathResult fs p = Except.ok (s, t) := by
  match hp : pathResult fs p with
  | Except.error e => rw [hp] at h; simp [Except.isOk, Except.toBool] at h
  | Except.ok (s, t) => exact ⟨s, t, rfl⟩

theorem load_from_folder_eq (fs : FsRoot) (paths : List Path)
    (h : discover_theme_paths fs = Except.ok paths) :
    load_from_folder fs =
      match loadLoop fs paths [] with
      | Except.error e => Except.error e
      | Except.ok m => Except.ok ⟨m⟩ := by
  rw [load_from_folder, h]

theorem mem_walkedPaths (fs : FsRoot) (p : Path) :
    p ∈ walkedPaths fs ↔ Except.ok p ∈ walkRoot fs := by
  rw [walkedPaths, List.mem_filterMap]
  constructor
  · rintro ⟨x, hx, hxp⟩
    match x with
    | Except.ok q => simp [Except.toOption] at hxp; subst hxp; exact hx
    | Except.error e => simp [Except.toOption] at hxp
  · intro h
    exact ⟨Except.ok p, h, rfl⟩

/-! ### Concrete filesystems used to instantiate the results -/

/-- A valid theme document materializing as the theme numbered `n`. -/
def goodData (n : Nat) : FileData := FileData.doc ⟨Except.ok ⟨n⟩⟩

/-- A tree of three valid theme files, one nested. -/
def treeAllGood : FsNode :=
  FsNode.dir (osOf "themes") true
    [FsNode.file (osOf "a.tmTheme") true (goodData 1),
     FsNode.file (osOf "b.tmTheme") true (goodData 2),
     FsNode.dir (osOf "sub") true
       [FsNode.file (osOf "c.tmTheme") true (goodData 3)]]

def fsAllGood : FsRoot := FsRoot.present [] treeAllGood

def pathsAllGood : List Path :=
  [[osOf "themes", osOf "a.tmTheme"],
   [osOf "themes", osOf "b.tmTheme"],
   [osOf "themes", osOf "sub", osOf "c.tmTheme"]]

def tsAllGood : ThemeSet :=
  ⟨[("a", ⟨1⟩), ("b", ⟨2⟩), ("c", ⟨3⟩)]⟩

/-- The same tree with the middle document malformed. -/
def fsOneBad : FsRoot :=
  FsRoot.present []
    (FsNode.dir (osOf "themes") true
      [FsNode.file (osOf "a.tmTheme") true (goodData 1),
       FsNode.file (osOf "b.tmTheme") true (FileData.badDoc "bad doc"),
       FsNode.file (osOf "c.tmTheme") true (goodData 3)])

/-- A readable tree whose only extension-matching entry is a DIRECTORY
named `d.tmTheme`; it contains no file at all. -/
def treeDirOnly : FsNode :=
  FsNode.dir (osOf "themes") true [FsNode.dir (osOf "d.tmTheme") true []]

def fsDirOnly : FsRoot := FsRoot.present [] treeDirOnly

def pathsDirOnly : List Path := [[osOf "themes", osOf "d.tmTheme"]]

/-- The extension filter applied to a bare file name. -/
def hasTmThemeName (n : OsStr) : Bool := hasTmThemeExt [n]

/-- Whether a file's content and access bits make it a valid theme file. -/
def validThemeData (openable : Bool) : FileData → Bool
  | FileData.doc s => openable && s.validate.isOk
  | FileData.badDoc _ => false

mutual
/-- The hypothesis of the completeness claim, as stated: every FILE in the
tree whose name matches the theme extension is a valid theme file.  Says
nothing about directories. -/
def themeFilesValid : FsNode → Bool
  | FsNode.file n openable data => !hasTmThemeName n || validThemeData openable data
  | FsNode.dir _ _ entries => themeFilesValidL entries

/-- `themeFilesValid` over a directory's entries. -/
def themeFilesValidL : List FsNode → Bool
  | [] => true
  | n :: rest => themeFilesValid n && themeFilesValidL rest
end

/-- A tree with two valid theme files of identical stem `x` in different
subdirectories; the `b` branch is walked after the `a` branch. -/
def fsDupStem : FsRoot :=
  FsRoot.present []
    (FsNode.dir (osOf "r") true
      [FsNode.dir (osOf "a") true
        [FsNode.file (osOf "x.tmTheme") true (goodData 1)],
       FsNode.dir (osOf "b") true
        [FsNode.file (osOf "x.tmTheme") true (goodData 2)]])

def pathsDupStem : List Path :=
  [[osOf "r", osOf "a", osOf "x.tmTheme"],
   [osOf "r", osOf "b", osOf "x.tmTheme"]]

/-- A file name with a non-textual stem and the theme extension: an
invalid byte followed by `".tmTheme"`. -/
def badStemName : OsStr := OsChar.bad :: osOf ".tmTheme"

/-- A tree whose only entry has a non-textual stem AND an invalid theme
document. -/
def fsBadStemBadTheme : FsRoot :=
  FsRoot.present []
    (FsNode.dir (osOf "r") true
      [FsNode.file badStemName true (FileData.doc ⟨Except.error "invalid theme"⟩)])

def pBadStem : Path := [osOf "r", badStemName]

/-- A tree whose only entry has a non-textual stem but a VALID theme
document. -/
def fsBadStemGoodTheme : FsRoot :=
  FsRoot.present []
    (FsNode.dir (osOf "r") true
      [FsNode.file badStemName true (goodData 7)])

/-- Extension-case tree: `x.tmtheme` and `x.txt` at the root,
`x.tmTheme` nested in a subdirectory. -/
def fsCaseTest : FsRoot :=
  FsRoot.present []
    (FsNode.dir (osOf "root") true
      [FsNode.file (osOf "x.tmtheme") true (goodData 2),
       FsNode.file (osOf "x.txt") true (goodData 3),
       FsNode.dir (osOf "sub") true
         [FsNode.file (osOf "x.tmTheme") true (goodData 1)]])

/-- A tree with an unreadable subdirectory listed before a valid theme
file. -/
def fsUnreadable : FsRoot :=
  FsRoot.present []
    (FsNode.dir (osOf "r") true
      [FsNode.dir (osOf "locked") false [],
       FsNode.file (osOf "y.tmTheme") true (goodData 9)])

/-- A tree whose entries are listed in reverse alphabetical order. -/
def fsReverseOrder : FsRoot :=
  FsRoot.present []
    (FsNode.dir (osOf "r") true
      [FsNode.file (osOf "b.tmTheme") true (goodData 2),
       FsNode.file (osOf "a.tmTheme") true (goodData 1)])

def pMissing : Path := [osOf "no-such-folder"]

/-! ### The claims -/

/-- C1.  `load_from_folder` is atomic over the whole batch: on success the
catalog has an entry for every discovered path's identifier, and the first
per-path failure (materialization or identifier derivation) becomes the
unique error of the whole load, whatever paths follow. -/
theorem load_from_folder_atomic :
    (∀ fs ts, load_from_folder fs = Except.ok ts →
      ∃ paths, discover_theme_paths fs = Except.ok paths ∧
        ∀ p ∈ paths, ∃ s, fileStemStr p = some s ∧
          (mapLookup s ts.themes).isSome = true) ∧
    (∀ fs paths pre p post e, discover_theme_paths fs = Except.ok paths →
      paths = pre ++ p :: post →
      (∀ q ∈ pre, (pathResult fs q).isOk = true) →
      pathResult fs p = Except.error e →
      load_from_folder fs = Except.error e) := by
  constructor
  · intro fs ts h
    match hd : discover_theme_paths fs with
    | Except.error e => simp [load_from_folder, hd] at h
    | Except.ok paths =>
      rw [load_from_folder_eq fs paths hd] at h
      refine ⟨paths, rfl, ?_⟩
      match hl : loadLoop fs paths [] with
      | Except.error e => simp [hl] at h
      | Except.ok m =>
        rw [hl] at h
        have hts : ThemeSet.mk m = ts := Except.ok.inj h
        intro p hp
        obtain ⟨s, t, hres⟩ :=
          pathResult_isOk_elim fs p (loadLoop_ok_all fs paths [] m hl p hp)
        refine ⟨s, ((pathResult_ok_iff fs p s t).mp hres).2, ?_⟩
        rw [← hts]
        show (mapLookup s m).isSome = true
        rw [loadLoop_lookup fs paths [] m hl s]
        have hsome := lastThemeFor_isSome fs s t paths p hp hres
        cases hlast : lastThemeFor fs paths s with
        | none => rw [hlast] at hsome; cases hsome
        | some t' => rfl
  · intro fs paths pre p post e hd hsplit hok hp
    rw [load_from_folder_eq fs paths hd, hsplit,
      loadLoop_firstError fs pre p post [] e hok hp]

/-- C1 witness: a concrete all-valid tree yields a catalog covering every
discovered path, and a concrete tree whose second discovered file is
malformed makes the whole load fail with exactly that document-parse
error. -/
theorem load_from_folder_atomic_witness :
    (∃ paths, discover_theme_paths fsAllGood = Except.ok paths ∧
      ∀ p ∈ paths, ∃ s, fileStemStr p = some s ∧
        (mapLookup s tsAllGood.themes).isSome = true) ∧
    load_from_folder fsOneBad =
      Except.error (ThemeSetError.ReadSettings "bad doc") := by
  constructor
  · exact load_from_folder_atomic.1 fsAllGood tsAllGood rfl
  · exact load_from_folder_atomic.2 fsOneBad
      [[osOf "themes", osOf "a.tmTheme"],
       [osOf "themes", osOf "b.tmTheme"],
       [osOf "themes", osOf "c.tmTheme"]]
      [[osOf "themes", osOf "a.tmTheme"]]
      [osOf "themes", osOf "b.tmTheme"]
      [[osOf "themes", osOf "c.tmTheme"]]
      (ThemeSetError.ReadSettings "bad doc") rfl rfl (by decide) rfl

/-- C2 counterexample: a readable tree in which every file with the theme
extension is (vacuously) a valid theme file — it contains no files — yet
`load_from_folder` returns an error, not a catalog: the tree holds a
DIRECTORY named `d.tmTheme`, which discovery includes and materialization
then fails on.  The claim's conclusion (success with key set equal to the
matching files' stems, here the empty set) fails. -/
theorem load_from_folder_valid_files_counterexample :
    themeFilesValid treeDirOnly = true ∧
    (∀ x ∈ walkRoot fsDirOnly, x.isOk = true) ∧
    load_from_folder fsDirOnly =
      Except.error (ThemeSetError.Io IoError.isDirectory) ∧
    ∀ ts, load_from_folder fsDirOnly ≠ Except.ok ts := by
  refine ⟨rfl, by decide, rfl, ?_⟩
  intro ts h
  exact Except.noConfusion
    ((rfl :
      load_from_folder fsDirOnly =
        Except.error (ThemeSetError.Io IoError.isDirectory)).symm.trans h)

/-- C2 (amended): for every root whose DISCOVERED paths all materialize
successfully and all have textual stems, `load_from_folder` succeeds and
the key set of the catalog is exactly the set of stems of the discovered
paths (duplicate stems collapsed to one key). -/
theorem load_from_folder_complete_catalog :
    ∀ fs paths, discover_theme_paths fs = Except.ok paths →
    (∀ p ∈ paths, (get_theme fs p).isOk = true) →
    (∀ p ∈ paths, (fileStemStr p).isSome = true) →
    ∃ ts, load_from_folder fs = Except.ok ts ∧
      ∀ s, (mapLookup s ts.themes).isSome = true ↔
        ∃ p ∈ paths, fileStemStr p = some s := by
  intro fs paths hd hthemes hstems
  have hall : ∀ p ∈ paths, (pathResult fs p).isOk = true := fun p hp =>
    (pathResult_isOk_iff fs p).mpr ⟨hthemes p hp, hstems p hp⟩
  obtain ⟨m, hm⟩ := loadLoop_ok_of_all fs paths [] hall
  refine ⟨⟨m⟩, by rw [load_from_folder_eq fs paths hd, hm], ?_⟩
  intro s
  rw [loadLoop_lookup fs paths [] m hm s]
  have hor : (lastThemeFor fs paths s).or (mapLookup s []) =
      lastThemeFor fs paths s := by
    cases lastThemeFor fs paths s <;> rfl
  rw [hor, lastThemeFor_isSome_iff]
  constructor
  · rintro ⟨p, hp, t, hres⟩
    exact ⟨p, hp, ((pathResult_ok_iff fs p s t).mp hres).2⟩
  · rintro ⟨p, hp, hstem⟩
    have hok := hthemes p hp
    match hg : get_theme fs p with
    | Except.error e => rw [hg] at hok; simp [Except.isOk, Except.toBool] at hok
    | Except.ok t =>
      exact ⟨p, hp, t, (pathResult_ok_iff fs p s t).mpr ⟨hg, hstem⟩⟩

/-- C2 witness: the amended claim applied to a concrete nested tree of
three valid theme files. -/
theorem load_from_folder_complete_catalog_witness :
    ∃ ts, load_from_folder fsAllGood = Except.ok ts ∧
      ∀ s, (mapLookup s ts.themes).isSome = true ↔
        ∃ p ∈ pathsAllGood, fileStemStr p = some s :=
  load_from_folder_complete_catalog fsAllGood pathsAllGood rfl
    (by decide) (by decide)

/-- C3.  `get_theme` composes exactly three stages in order — open the
file, parse the bytes into a settings tree, validate the settings tree
into a theme — short-circuiting on the first failure and lifting each
stage's error into its own variant (`Io`, `ReadSettings`, `ParseTheme`),
preserving the originating cause. -/
theorem get_theme_stage_characterization :
    ∀ fs p,
    get_theme fs p =
      match fileOpen fs p with
      | Except.error e => Except.error (ThemeSetError.Io e)
      | Except.ok d =>
        match readPlistExternal d with
        | Except.error e => Except.error (ThemeSetError.ReadSettings e)
        | Except.ok s =>
          match parseSettingsExternal s with
          | Except.error e => Except.error (ThemeSetError.ParseTheme e)
          | Except.ok t => Except.ok t := by
  intro fs p
  cases hO : fileOpen fs p with
  | error e => simp [get_theme, read_plist, read_file, hO]
  | ok d =>
    cases hR : readPlistExternal d with
    | error e => simp [get_theme, read_plist, read_file, hO, hR]
    | ok s =>
      cases hV : parseSettingsExternal s with
      | error e => simp [get_theme, read_plist, read_file, hO, hR, hV]
      | ok t => simp [get_theme, read_plist, read_file, hO, hR, hV]

/-- C4.  Under an error-free traversal, discovery returns exactly the
walked paths (root included, nested subdirectories included) whose
extension equals `"tmTheme"` case-sensitively, in walk order. -/
theorem discover_theme_paths_extension_exact :
    ∀ fs, (∀ x ∈ walkRoot fs, x.isOk = true) →
    discover_theme_paths fs =
      Except.ok ((walkedPaths fs).filter hasTmThemeExt) ∧
    ∀ p, p ∈ (walkedPaths fs).filter hasTmThemeExt ↔
      p ∈ walkedPaths fs ∧ hasTmThemeExt p = true := by
  intro fs h
  refine ⟨discover_ok_eq_filter fs h, ?_⟩
  intro p
  exact List.mem_filter

/-- C4 witness: in a tree holding `x.tmtheme` and `x.txt` at the root and
`x.tmTheme` in a subdirectory, discovery returns exactly the nested
`x.tmTheme`. -/
theorem discover_theme_paths_extension_exact_witness :
    discover_theme_paths fsCaseTest =
      Except.ok [[osOf "root", osOf "sub", osOf "x.tmTheme"]] := by
  have h := (discover_theme_paths_extension_exact fsCaseTest (by decide)).1
  rw [h]
  rfl

/-- C5 counterexample: on a discovered file whose stem is not
representable as text AND whose content is an invalid theme, the code
returns the materialization error, not the bad-path error — `get_theme`
runs BEFORE the identifier is derived, contradicting the claimed order;
moreover the `BadPath` variant carries no path. -/
theorem load_from_folder_badpath_counterexample :
    discover_theme_paths fsBadStemBadTheme = Except.ok [pBadStem] ∧
    fileStemStr pBadStem = none ∧
    load_from_folder fsBadStemBadTheme =
      Except.error (ThemeSetError.ParseTheme "invalid theme") ∧
    load_from_folder fsBadStemBadTheme ≠
      Except.error ThemeSetError.BadPath := by
  refine ⟨rfl, rfl, rfl, ?_⟩
  intro h
  have h2 := (rfl : load_from_folder fsBadStemBadTheme =
    Except.error (ThemeSetError.ParseTheme "invalid theme")).symm.trans h
  injection h2 with h3
  cases h3

/-- C5 (amended): for each discovered path, `load_from_folder` runs
`get_theme` FIRST — a materialization failure surfaces even when the stem
is also bad — and only when materialization succeeds and the stem is
absent or non-textual does it fail the whole load with the payload-free
`BadPath` error. -/
theorem load_from_folder_stem_after_materialize :
    ∀ fs paths pre p post, discover_theme_paths fs = Except.ok paths →
    paths = pre ++ p :: post →
    (∀ q ∈ pre, (pathResult fs q).isOk = true) →
    (∀ e, get_theme fs p = Except.error e →
      load_from_folder fs = Except.error e) ∧
    (∀ t, get_theme fs p = Except.ok t → fileStemStr p = none →
      load_from_folder fs = Except.error ThemeSetError.BadPath) := by
  intro fs paths pre p post hd hsplit hok
  constructor
  · intro e hg
    have hp : pathResult fs p = Except.error e := by rw [pathResult, hg]
    rw [load_from_folder_eq fs paths hd, hsplit,
      loadLoop_firstError fs pre p post [] e hok hp]
  · intro t hg hs
    have hp : pathResult fs p = Except.error ThemeSetError.BadPath := by
      rw [pathResult, hg, hs]
    rw [load_from_folder_eq fs paths hd, hsplit,
      loadLoop_firstError fs pre p post [] _ hok hp]

/-- C5 witness: with a non-textual stem and an invalid document the load
fails with the validation error; with a non-textual stem and a valid
document it fails with `BadPath`. -/
theorem load_from_folder_stem_after_materialize_witness :
    load_from_folder fsBadStemBadTheme =
      Except.error (ThemeSetError.ParseTheme "invalid theme") ∧
    load_from_folder fsBadStemGoodTheme =
      Except.error ThemeSetError.BadPath := by
  constructor
  · exact (load_from_folder_stem_after_materialize fsBadStemBadTheme
      [pBadStem] [] pBadStem [] rfl rfl (by decide)).1
      (ThemeSetError.ParseTheme "invalid theme") rfl
  · exact (load_from_folder_stem_after_materialize fsBadStemGoodTheme
      [pBadStem] [] pBadStem [] rfl rfl (by decide)).2 ⟨7⟩ rfl rfl

/-- C6.  On a successful load the catalog binds each identifier to the
theme of the LAST discovered path bearing that stem, and holds no
duplicate keys — duplicates overwrite silently rather than erroring. -/
theorem load_from_folder_last_discovered_wins :
    ∀ fs ts paths, load_from_folder fs = Except.ok ts →
    discover_theme_paths fs = Except.ok paths →
    (∀ s, mapLookup s ts.themes = lastThemeFor fs paths s) ∧
    (ts.themes.map Prod.fst).Nodup := by
  intro fs ts paths h hd
  rw [load_from_folder_eq fs paths hd] at h
  match hl : loadLoop fs paths [] with
  | Except.error e => simp [hl] at h
  | Except.ok m =>
    rw [hl] at h
    have hts : ThemeSet.mk m = ts := Except.ok.inj h
    subst hts
    constructor
    · intro s
      show mapLookup s m = lastThemeFor fs paths s
      rw [loadLoop_lookup fs paths [] m hl s]
      cases lastThemeFor fs paths s <;> rfl
    · show (m.map Prod.fst).Nodup
      have hasc := loadLoop_keysAscending fs paths [] m List.Pairwise.nil hl
      rw [keysAscending] at hasc
      rw [List.Nodup, List.pairwise_map]
      exact hasc.imp (fun hlt => strLt_ne hlt)

/-- C6 witness: two `x.tmTheme` files in different subdirectories; the
catalog holds exactly one entry for `x`, carrying the theme of the
later-walked path. -/
theorem load_from_folder_last_discovered_wins_witness :
    load_from_folder fsDupStem = Except.ok ⟨[("x", ⟨2⟩)]⟩ ∧
    mapLookup "x" [(("x" : String), (⟨2⟩ : Theme))] =
      lastThemeFor fsDupStem pathsDupStem "x" ∧
    lastThemeFor fsDupStem pathsDupStem "x" = some ⟨2⟩ := by
  refine ⟨rfl, ?_, rfl⟩
  exact (load_from_folder_last_discovered_wins fsDupStem ⟨[("x", ⟨2⟩)]⟩
    pathsDupStem rfl rfl).1 "x"

/-- C7.  The first traversal failure of the walk aborts discovery with a
`WalkDir` traversal error, and `load_from_folder` propagates that very
error unchanged. -/
theorem discover_traversal_error_aborts :
    ∀ fs pre e rest, walkRoot fs = pre ++ Except.error e :: rest →
    (∀ x ∈ pre, x.isOk = true) →
    discover_theme_paths fs = Except.error (ThemeSetError.WalkDir e) ∧
    load_from_folder fs = Except.error (ThemeSetError.WalkDir e) := by
  intro fs pre e rest hw hok
  have hd : discover_theme_paths fs = Except.error (ThemeSetError.WalkDir e) := by
    rw [discover_theme_paths, hw]
    exact discoverLoop_firstError pre [] e rest hok
  refine ⟨hd, ?_⟩
  rw [load_from_folder, hd]

/-- C7 witness: a nonexistent root aborts discovery; an unreadable
subdirectory aborts the whole folder load with the traversal error
identifying it, although a valid theme file follows in walk order. -/
theorem discover_traversal_error_aborts_witness :
    discover_theme_paths (FsRoot.missing pMissing) =
      Except.error (ThemeSetError.WalkDir ⟨pMissing⟩) ∧
    load_from_folder fsUnreadable =
      Except.error (ThemeSetError.WalkDir ⟨[osOf "r", osOf "locked"]⟩) := by
  constructor
  · exact (discover_traversal_error_aborts (FsRoot.missing pMissing)
      [] ⟨pMissing⟩ [] rfl (by decide)).1
  · exact (discover_traversal_error_aborts fsUnreadable
      [Except.ok [osOf "r"], Except.ok [osOf "r", osOf "locked"]]
      ⟨[osOf "r", osOf "locked"]⟩
      [Except.ok [osOf "r", osOf "y.tmTheme"]] rfl (by decide)).2

/-- C8.  Whenever opening the path fails, `get_theme` fails with the
file-access (`Io`) variant wrapping that cause — never with the
document-parse (`ReadSettings`) or theme-validation (`ParseTheme`)
variant. -/
theorem get_theme_open_failure_io :
    ∀ fs p e, fileOpen fs p = Except.error e →
    get_theme fs p = Except.error (ThemeSetError.Io e) ∧
    (∀ c, get_theme fs p ≠ Except.error (ThemeSetError.ReadSettings c)) ∧
    (∀ c, get_theme fs p ≠ Except.error (ThemeSetError.ParseTheme c)) := by
  intro fs p e h
  have hg : get_theme fs p = Except.error (ThemeSetError.Io e) := by
    simp [get_theme, read_plist, read_file, h]
  refine ⟨hg, ?_, ?_⟩
  · intro c hc
    rw [hg] at hc
    injection hc with h2
    cases h2
  · intro c hc
    rw [hg] at hc
    injection hc with h2
    cases h2

/-- C8 witness: `get_theme` on a nonexistent path fails with the
file-access error. -/
theorem get_theme_open_failure_io_witness :
    get_theme fsAllGood [osOf "themes", osOf "ghost.tmTheme"] =
      Except.error (ThemeSetError.Io IoError.notFound) :=
  (get_theme_open_failure_io fsAllGood [osOf "themes", osOf "ghost.tmTheme"]
    IoError.notFound rfl).1

/-- C9.  Every catalog `load_from_folder` returns is strictly ascending in
its keys — iteration over `themes` is always in sorted key order, whatever
order traversal produced the entries in. -/
theorem load_from_folder_keys_sorted :
    ∀ fs ts, load_from_folder fs = Except.ok ts →
    ts.themes.Pairwise (fun a b => strLt a.1 b.1 = true) := by
  intro fs ts h
  match hd : discover_theme_paths fs with
  | Except.error e => simp [load_from_folder, hd] at h
  | Except.ok paths =>
    rw [load_from_folder_eq fs paths hd] at h
    match hl : loadLoop fs paths [] with
    | Except.error e => simp [hl] at h
    | Except.ok m =>
      rw [hl] at h
      have hts : ThemeSet.mk m = ts := Except.ok.inj h
      subst hts
      exact loadLoop_keysAscending fs paths [] m List.Pairwise.nil hl

/-- C9 witness: a directory listing `b.tmTheme` before `a.tmTheme` still
yields the catalog `[a, b]` in ascending key order. -/
theorem load_from_folder_keys_sorted_witness :
    load_from_folder fsReverseOrder =
      Except.ok ⟨[("a", ⟨1⟩), ("b", ⟨2⟩)]⟩ ∧
    ([(("a" : String), (⟨1⟩ : Theme)), ("b", ⟨2⟩)]).Pairwise
      (fun a b => strLt a.1 b.1 = true) := by
  refine ⟨rfl, ?_⟩
  exact load_from_folder_keys_sorted fsReverseOrder
    ⟨[("a", ⟨1⟩), ("b", ⟨2⟩)]⟩ rfl

/-- C10.  Discovery filters on the extension alone, never on the kind of
entry: membership in the discovered list is equivalent to being walked
with a matching extension, and when the first discovered path is a
directory, `load_from_folder` attempts to materialize it and fails with
the resulting file-access error. -/
theorem discover_ignores_entry_kind :
    (∀ fs l p, discover_theme_paths fs = Except.ok l →
      (p ∈ l ↔ Except.ok p ∈ walkRoot fs ∧ hasTmThemeExt p = true)) ∧
    (∀ fs paths p post n r es, discover_theme_paths fs = Except.ok paths →
      paths = p :: post →
      resolveRoot fs p = some (FsNode.dir n r es) →
      load_from_folder fs =
        Except.error (ThemeSetError.Io IoError.isDirectory)) := by
  constructor
  · intro fs l p hd
    exact discover_ok_mem fs l hd p
  · intro fs paths p post n r es hd hsplit hres
    have hopen : fileOpen fs p = Except.error IoError.isDirectory := by
      rw [fileOpen, hres]
    have hg : get_theme fs p =
        Except.error (ThemeSetError.Io IoError.isDirectory) := by
      simp [get_theme, read_plist, read_file, hopen]
    have hp : pathResult fs p =
        Except.error (ThemeSetError.Io IoError.isDirectory) := by
      rw [pathResult, hg]
    have hloop := loadLoop_firstError fs [] p post [] _
      (fun q hq => absurd hq (List.not_mem_nil q)) hp
    rw [List.nil_append] at hloop
    rw [load_from_folder_eq fs paths hd, hsplit, hloop]

/-- C10 witness: a directory named `d.tmTheme` is discovered and the load
then fails attempting to open it. -/
theorem discover_ignores_entry_kind_witness :
    discover_theme_paths fsDirOnly = Except.ok pathsDirOnly ∧
    load_from_folder fsDirOnly =
      Except.error (ThemeSetError.Io IoError.isDirectory) := by
  constructor
  · rfl
  · exact discover_ignores_entry_kind.2 fsDirOnly pathsDirOnly
      [osOf "themes", osOf "d.tmTheme"] [] (osOf "d.tmTheme") true []
      rfl rfl rfl

end ThemeSet

end ThemeSpec
